import Mathlib

/-!
Verification of the undocker layer-extraction tool (`undocker3.py`, `constants.py`).

The embedding below translates the relevant parts of the Python source into Lean:
paths are lists of characters (mirroring Python string operations character by
character), the output tree is a finite set of paths together with a table of
paths whose deletion raises an OS error, tar entries are records of the fields
the code reads, and each phase of the program (whiteout processing, the deferred
directory-attribute post-pass of `TarFileOverrides.extractall`, the layer-chain
walk of `find_layers`, and the image-reference resolution in `main`) becomes an
executable function.
-/

namespace Undocker

/-- A path, modelled as the list of characters of the Python string. -/
abbrev Path := List Char

/-! ## Constants (`constants.py`) -/

/-- `OWNER_READ_WRITE = 0o700` (constants.py line 7). -/
def OWNER_READ_WRITE : Nat := 0o700

/-- `DIRECTORY_MODE = 0o40000` (constants.py line 11). -/
def DIRECTORY_MODE : Nat := 0o40000

/-- `OWNER_WRITE = 0b10000010` (constants.py line 15); note the value is
octal 0o202, i.e. owner-write plus other-write. -/
def OWNER_WRITE : Nat := 0b10000010

/-! ## Python string operations used by the whiteout loop -/

/-- The whiteout marker leader `.wh.` used in `path.startswith('.wh.')`
(undocker3.py line 195). -/
def dotWh : Path := ['.', 'w', 'h', '.']

/-- The pattern `/.wh.` used in `'/.wh.' in path` and
`path.replace('/.wh.', '/')` (undocker3.py lines 194, 198). -/
def slashWh : Path := ['/', '.', 'w', 'h', '.']

/-- Python substring containment `pat in s`. -/
def hasSubstr (pat : Path) : Path → Bool
  | [] => pat.isEmpty
  | c :: rest => pat.isPrefixOf (c :: rest) || hasSubstr pat rest

/-- Python `path.replace('/.wh.', '/')`: replace every non-overlapping
occurrence of `/.wh.` left to right by `/`. -/
def replaceSlashWh : Path → Path
  | [] => []
  | c :: rest =>
    if slashWh.isPrefixOf (c :: rest) then '/' :: replaceSlashWh (rest.drop 4)
    else c :: replaceSlashWh rest
termination_by l => l.length
decreasing_by
  · simp [List.length_drop]; omega
  · simp

/-- The test on undocker3.py line 194:
`path.startswith('.wh.') or '/.wh.' in path`. -/
def isWhiteoutPath (p : Path) : Bool :=
  dotWh.isPrefixOf p || hasSubstr slashWh p

/-- The new path computed on undocker3.py lines 195-198:
`path[4:]` when the path starts with `.wh.`, else
`path.replace('/.wh.', '/')`. -/
def whNewpath (p : Path) : Path :=
  if dotWh.isPrefixOf p then p.drop 4 else replaceSlashWh p

/-! ## The output tree and `os.unlink` -/

/-- `errno.ENOENT`. -/
def ENOENT : Nat := 2

/-- The output tree: the set of existing file paths, plus a table assigning to
some paths an errno with which `os.unlink` fails on them (modelling permission
errors, directory targets and the like). -/
structure FS where
  files : List Path
  blocked : List (Path × Nat)
deriving DecidableEq

/-- Association-list lookup for the `blocked` table. -/
def lookupBlocked : List (Path × Nat) → Path → Option Nat
  | [], _ => none
  | (q, e) :: rest, p => if q = p then some e else lookupBlocked rest p

/-- `os.unlink(p)`: fails with the recorded errno if the path is blocked,
removes the path if it exists, and fails with `ENOENT` otherwise. -/
def unlinkFS (fs : FS) (p : Path) : Except Nat FS :=
  match lookupBlocked fs.blocked p with
  | some e => .error e
  | none =>
    if p ∈ fs.files then
      .ok ⟨fs.files.filter (fun q => decide (q ≠ p)), fs.blocked⟩
    else .error ENOENT

/-- Processing of one member in the whiteout loop (undocker3.py lines 193-206):
if the path matches the whiteout test, `os.unlink(path)` then
`os.unlink(newpath)` inside one `try` that swallows `ENOENT` and re-raises
every other `OSError`. -/
def processMember (fs : FS) (p : Path) : Except Nat FS :=
  if isWhiteoutPath p then
    match unlinkFS fs p with
    | .error e => if e = ENOENT then .ok fs else .error e
    | .ok fs1 =>
      match unlinkFS fs1 (whNewpath p) with
      | .error e => if e = ENOENT then .ok fs1 else .error e
      | .ok fs2 => .ok fs2
  else .ok fs

/-- The whiteout loop over the layer's member paths (undocker3.py lines
192-206); an uncaught `OSError` aborts the run. -/
def processWhiteouts : List Path → FS → Except Nat FS
  | [], fs => .ok fs
  | p :: rest, fs =>
    match processMember fs p with
    | .ok fs1 => processWhiteouts rest fs1
    | .error e => .error e

/-- The marker path `D/.wh.X` (or `.wh.X` at the root when no directory is
given). -/
def markOf : Option Path → Path → Path
  | none, x => dotWh ++ x
  | some d, x => d ++ '/' :: (dotWh ++ x)

/-- The deletion target `D/X` named by the marker `D/.wh.X`. -/
def targOf : Option Path → Path → Path
  | none, x => x
  | some d, x => d ++ '/' :: x

/-! ## Tar entries and `TarFileOverrides.extractall` (undocker3.py lines 22-69) -/

/-- The fields of a tar entry that `extractall` reads: its `name`, whether
`isdir()` holds, and its recorded `mode`. -/
structure TarInfo where
  name : Path
  isdir : Bool
  mode : Nat
deriving DecidableEq

/-- `os.path.join(path, tarinfo.name)` (undocker3.py line 58). -/
def pathJoin (root name : Path) : Path :=
  if root = [] then name else root ++ '/' :: name

/-- Outcome of the three attribute-application calls (`chown`, `utime`,
`chmod`) on one deferred directory; the tarfile helpers convert `OSError`
into `ExtractError`, which is what lines 65-69 catch. -/
inductive AttrResult
  | ok
  | chownFail
  | utimeFail
  | chmodFail
deriving DecidableEq

/-- The mode passed to `chmod` on undocker3.py lines 62-64: the recorded mode
with `OWNER_WRITE` OR-ed in whenever the recorded mode has the
`DIRECTORY_MODE` bit. -/
def appliedMode (d : TarInfo) : Nat :=
  if d.mode &&& DIRECTORY_MODE ≠ 0 then d.mode ||| OWNER_WRITE else d.mode

/-- State threaded through the post-pass over deferred directories: the
successful `chmod` calls made (path and mode), the entries whose `mode` field
was mutated in place on line 63, and whether an `ExtractError` was re-raised. -/
structure PostState where
  chmods : List (Path × Nat)
  mutated : List TarInfo
  raised : Bool
deriving DecidableEq

/-- One iteration of the post-pass loop (undocker3.py lines 57-69). After a
re-raise the loop is gone, so a raised state passes through unchanged. The
in-place mode mutation on line 63 happens only once `chown` and `utime` have
succeeded, and happens even when the subsequent `chmod` fails. -/
def postStep (errorlevel : Nat) (outcome : TarInfo → AttrResult) (root : Path)
    (st : PostState) (d : TarInfo) : PostState :=
  if st.raised then st
  else
    match outcome d with
    | .chownFail => { st with raised := decide (1 < errorlevel) }
    | .utimeFail => { st with raised := decide (1 < errorlevel) }
    | .chmodFail =>
        { st with
          mutated := st.mutated ++ (if d.mode &&& DIRECTORY_MODE ≠ 0 then [d] else []),
          raised := decide (1 < errorlevel) }
    | .ok =>
        { st with
          mutated := st.mutated ++ (if d.mode &&& DIRECTORY_MODE ≠ 0 then [d] else []),
          chmods := st.chmods ++ [(pathJoin root d.name, appliedMode d)] }

/-- The whole post-pass (undocker3.py lines 56-69) over an already ordered
list of deferred directories. -/
def postPass (errorlevel : Nat) (outcome : TarInfo → AttrResult) (root : Path)
    (dirs : List TarInfo) : PostState :=
  dirs.foldl (postStep errorlevel outcome root) ⟨[], [], false⟩

/-- Python string comparison on paths (code-point lexicographic), as used by
`directories.sort(key=lambda a: a.name)` on line 53. -/
def charListLe : Path → Path → Bool
  | [], _ => true
  | _ :: _, [] => false
  | a :: as, b :: bs => if a = b then charListLe as bs else decide (a < b)

/-- Stable insertion used to model Python's ascending stable sort by name. -/
def insertTI (d : TarInfo) : List TarInfo → List TarInfo
  | [] => [d]
  | e :: es => if charListLe d.name e.name then d :: e :: es else e :: insertTI d es

/-- `directories.sort(key=lambda a: a.name)` (undocker3.py line 53). -/
def sortByName : List TarInfo → List TarInfo
  | [] => []
  | d :: ds => insertTI d (sortByName ds)

/-- The list of deferred directories collected on lines 43-45: the members
with `isdir()` true, in member order, holding the original recorded fields. -/
def deferredDirs (members : List TarInfo) : List TarInfo :=
  members.filter (fun m => m.isdir)

/-- The order in which the post-pass applies directory attributes: sort by
name ascending, then reverse (undocker3.py lines 52-54). -/
def applyOrder (members : List TarInfo) : List TarInfo :=
  (sortByName (deferredDirs members)).reverse

/-- The per-member `self.extract(...)` calls of the first phase (undocker3.py
lines 42-50): for a directory a copy with mode `OWNER_READ_WRITE` is extracted
with `set_attrs=False`; every other entry is extracted as is with
`set_attrs=True`. -/
def immediateCalls (members : List TarInfo) : List (TarInfo × Bool) :=
  members.map (fun m =>
    if m.isdir then ({ m with mode := OWNER_READ_WRITE }, false) else (m, true))

/-- `errorlevel=(0 if args.ignore_errors else 1)` (undocker3.py line 188). -/
def errorlevelOf (ignoreErrors : Bool) : Nat :=
  if ignoreErrors then 0 else 1

/-- The state of the member objects after `extractall` returns: the post-pass
mutates in place (line 63) the `mode` field of exactly the directory entries it
reached with `chown`/`utime` succeeding and the `DIRECTORY_MODE` bit set. -/
def finalMembers (ignoreErrors : Bool) (outcome : TarInfo → AttrResult)
    (root : Path) (members : List TarInfo) : List TarInfo :=
  members.map (fun m =>
    if m ∈ (postPass (errorlevelOf ignoreErrors) outcome root (applyOrder members)).mutated
    then { m with mode := m.mode ||| OWNER_WRITE } else m)

/-! ## The layer chain walk (`find_layers`, undocker3.py lines 109-122) -/

/-- Result of running the chain walk under a fuel bound: a finished chain, a
crash on a missing metadata file, or failure to finish within the bound (the
recursion in the source has no cycle guard, so on cyclic metadata no bound
suffices). -/
inductive WalkOut
  | chain (ids : List String)
  | missing (id : String)
  | hang
deriving DecidableEq

/-- Layer metadata: each id maps to `some parent` or `none` (no `parent` key),
as read from `<id>/json`; a missing list entry models a missing metadata file. -/
def lookupMeta : List (String × Option String) → String → Option (Option String)
  | [], _ => none
  | (k, v) :: rest, id => if k = id then some v else lookupMeta rest id

/-- `find_layers` (undocker3.py lines 109-122): emit the id, then recurse into
the parent when the metadata has one; instrumented with fuel to make the
unbounded recursion a total function. -/
def findLayersF (md : List (String × Option String)) : Nat → String → WalkOut
  | 0, _ => .hang
  | fuel + 1, id =>
    match lookupMeta md id with
    | none => .missing id
    | some none => .chain [id]
    | some (some pid) =>
      match findLayersF md fuel pid with
      | .chain rest => .chain (id :: rest)
      | e => e

/-- The order in which `main` extracts layers (undocker3.py lines 181-183):
`reversed(layers)`, skipping ids outside `args.layer` when that option was
given with a non-empty (truthy) list. -/
def extractionOrder (layerFilter : Option (List String)) (layers : List String) :
    List String :=
  layers.reverse.filter (fun id =>
    match layerFilter with
    | none => true
    | some sel => if sel.isEmpty then true else sel.contains id)

/-- The chain shape produced by the walk: each id is followed by its parent,
and the last id has no parent. -/
def ChainLinked (md : List (String × Option String)) : List String → Prop
  | [] => True
  | [x] => lookupMeta md x = some none
  | x :: y :: rest => lookupMeta md x = some (some y) ∧ ChainLinked md (y :: rest)

/-- The three-layer metadata of the scenario: chain L3 → L2 → L1. -/
def meta3 : List (String × Option String) :=
  [("L3", some ("L2")), ("L2", some ("L1")), ("L1", none)]

/-- Cyclic two-layer metadata: L1 and L2 point at each other. -/
def metaCyc : List (String × Option String) :=
  [("L1", some ("L2")), ("L2", some ("L1"))]

/-! ## Image-reference resolution (undocker3.py lines 151-169) -/

/-- How the resolution code in `main` ends: a top-layer id; the
`LOG.error` + `sys.exit(1)` path for no reference with several repositories;
the `LOG.error('failed to find image ...')` + `sys.exit(1)` path (the
`ImageNotFound` report); an uncaught `KeyError` from `repos[args.image]` on
line 161; or an uncaught `StopIteration` from `next(iter(...))` there. -/
inductive ResolveOut
  | ok (top : Path)
  | ambiguousExit
  | imageNotFound
  | keyErrorCrash
  | stopIterationCrash
deriving DecidableEq

/-- Association-list lookup, modelling Python dict indexing with insertion
order preserved. -/
def lookupA {β : Type} : List (Path × β) → Path → Option β
  | [], _ => none
  | (k, v) :: rest, key => if k = key then some v else lookupA rest key

/-- Python `image.split(':', 1)`: `none` when there is no colon (the
`ValueError` branch), otherwise the parts before and after the first colon. -/
def splitColon : Path → Option (Path × Path)
  | [] => none
  | c :: rest =>
    if c = ':' then some ([], rest)
    else
      match splitColon rest with
      | none => none
      | some (a, b) => some (c :: a, b)

/-- `top = repos[name][tag]` with `KeyError` caught (undocker3.py lines
163-169): a failed lookup at either level is the `ImageNotFound` report. -/
def finishLookup (repos : List (Path × List (Path × Path))) (n t : Path) :
    ResolveOut :=
  match lookupA repos n with
  | none => .imageNotFound
  | some tags =>
    match lookupA tags t with
    | none => .imageNotFound
    | some top => .ok top

/-- Lines 158-169 for a present reference string: split at the first colon;
with no colon, default the tag to the first key of `repos[args.image]`, an
indexing that is outside any `try` and crashes when the name is absent. -/
def resolveRef (repos : List (Path × List (Path × Path))) (img : Path) :
    ResolveOut :=
  match splitColon img with
  | some (n, t) => finishLookup repos n t
  | none =>
    match lookupA repos img with
    | none => .keyErrorCrash
    | some tags =>
      match tags with
      | [] => .stopIterationCrash
      | (t, _) :: _ => finishLookup repos img t

/-- Lines 151-169: when no reference is given, a single-repository manifest
supplies the name and anything else is the ambiguous-image exit. -/
def resolveImage (repos : List (Path × List (Path × Path)))
    (image? : Option Path) : ResolveOut :=
  match image? with
  | some img => resolveRef repos img
  | none =>
    match repos with
    | [(n, _)] => resolveRef repos n
    | _ => .ambiguousExit

/-! ## Basic lemmas about the chain walk -/

lemma extractionOrder_none (w : List String) : extractionOrder none w = w.reverse := by
  dsimp only [extractionOrder]
  simp

/-- C2: for every acyclic parent-linked metadata set (every walk that
completes), the chain starts at the top id, is parent-linked down to a layer
with no parent, and the orchestrator's extraction order is exactly its
reverse; in particular for the chain L3 → L2 → L1 the walk yields
[L3, L2, L1] and the extraction order is [L1, L2, L3]. -/
theorem chain_walk_order :
    (∀ (md : List (String × Option String)) (fuel : Nat) (t : String) (w : List String),
        findLayersF md fuel t = .chain w →
        w.head? = some t ∧ ChainLinked md w ∧ extractionOrder none w = w.reverse)
    ∧ findLayersF meta3 4 ("L3") = .chain ["L3", "L2", "L1"]
    ∧ extractionOrder none ["L3", "L2", "L1"] = ["L1", "L2", "L3"] := by
  refine ⟨?_, by rfl, by rfl⟩
  intro md fuel
  induction fuel with
  | zero =>
    intro t w h
    exact absurd h (by simp [findLayersF])
  | succ fuel ih =>
    intro t w h
    simp only [findLayersF] at h
    cases hm : lookupMeta md t with
    | none => rw [hm] at h; exact absurd h (by simp)
    | some pid? =>
      rw [hm] at h
      cases pid? with
      | none =>
        dsimp only at h
        injection h with h2
        subst h2
        exact ⟨rfl, hm, extractionOrder_none _⟩
      | some pid =>
        dsimp only at h
        cases hr : findLayersF md fuel pid with
        | chain rest =>
          rw [hr] at h
          injection h with h2
          subst h2
          obtain ⟨h1, h2, _⟩ := ih pid rest hr
          cases rest with
          | nil => simp at h1
          | cons q rest' =>
            have hq : q = pid := by simpa using h1
            subst hq
            exact ⟨rfl, ⟨hm, h2⟩, extractionOrder_none _⟩
        | missing i => rw [hr] at h; exact absurd h (by simp)
        | hang => rw [hr] at h; exact absurd h (by simp)

/-- C2 witness: the theorem instantiated on the concrete three-layer chain. -/
theorem chain_walk_order_witness :
    (["L3", "L2", "L1"] : List String).head? = some ("L3")
    ∧ ChainLinked meta3 ["L3", "L2", "L1"]
    ∧ extractionOrder none ["L3", "L2", "L1"] = (["L3", "L2", "L1"] : List String).reverse :=
  chain_walk_order.1 meta3 4 ("L3") ["L3", "L2", "L1"] (by rfl)

/-- C3: on the cyclic metadata where L1 and L2 name each other as parent, the
source's chain walk (a recursion with no visited set) never completes, for any
fuel bound: it loops rather than failing with a cyclic-chain error. -/
theorem cyclic_chain_never_completes :
    ∀ fuel : Nat,
      findLayersF metaCyc fuel ("L1") = .hang
      ∧ findLayersF metaCyc fuel ("L2") = .hang := by
  intro fuel
  induction fuel with
  | zero => exact ⟨rfl, rfl⟩
  | succ fuel ih =>
    obtain ⟨h1, h2⟩ := ih
    refine ⟨?_, ?_⟩
    · show (match findLayersF metaCyc fuel ("L2") with
            | .chain rest => WalkOut.chain (("L1") :: rest)
            | e => e) = WalkOut.hang
      rw [h2]
    · show (match findLayersF metaCyc fuel ("L1") with
            | .chain rest => WalkOut.chain (("L2") :: rest)
            | e => e) = WalkOut.hang
      rw [h1]

/-! ## Lemmas about the whiteout model -/

lemma unlinkFS_ok {fs fs1 : FS} {p : Path} (h : unlinkFS fs p = .ok fs1) :
    lookupBlocked fs.blocked p = none ∧ p ∈ fs.files ∧
      fs1 = ⟨fs.files.filter (fun q => decide (q ≠ p)), fs.blocked⟩ := by
  unfold unlinkFS at h
  cases hb : lookupBlocked fs.blocked p with
  | some e => rw [hb] at h; exact absurd h (by simp)
  | none =>
    rw [hb] at h
    dsimp only at h
    by_cases hm : p ∈ fs.files
    · rw [if_pos hm] at h
      injection h with h2
      exact ⟨rfl, hm, h2.symm⟩
    · rw [if_neg hm] at h; exact absurd h (by simp)

lemma processMember_ok_cases {fs fs' : FS} {m : Path}
    (h : processMember fs m = .ok fs') :
    fs' = fs ∨
    (isWhiteoutPath m = true ∧ m ∈ fs.files ∧
      (fs' = ⟨fs.files.filter (fun q => decide (q ≠ m)), fs.blocked⟩ ∨
       fs' = ⟨(fs.files.filter (fun q => decide (q ≠ m))).filter
                (fun q => decide (q ≠ whNewpath m)), fs.blocked⟩)) := by
  unfold processMember at h
  by_cases hw : isWhiteoutPath m = true
  · rw [if_pos hw] at h
    cases hu : unlinkFS fs m with
    | error e =>
      rw [hu] at h
      dsimp only at h
      by_cases he : e = ENOENT
      · rw [if_pos he] at h
        injection h with h2
        exact Or.inl h2.symm
      · rw [if_neg he] at h; exact absurd h (by simp)
    | ok fs1 =>
      obtain ⟨hb0, hm0, hfs1⟩ := unlinkFS_ok hu
      rw [hu] at h
      dsimp only at h
      cases hu2 : unlinkFS fs1 (whNewpath m) with
      | error e =>
        rw [hu2] at h
        dsimp only at h
        by_cases he : e = ENOENT
        · rw [if_pos he] at h
          injection h with h2
          exact Or.inr ⟨hw, hm0, Or.inl (h2 ▸ hfs1)⟩
        · rw [if_neg he] at h; exact absurd h (by simp)
      | ok fs2 =>
        obtain ⟨_, _, hfs2⟩ := unlinkFS_ok hu2
        rw [hu2] at h
        dsimp only at h
        injection h with h2
        subst hfs1
        refine Or.inr ⟨hw, hm0, Or.inr ?_⟩
        rw [← h2, hfs2]
  · rw [if_neg hw] at h
    injection h with h2
    exact Or.inl h2.symm

lemma processMember_mono {fs fs' : FS} {m : Path}
    (h : processMember fs m = .ok fs') :
    ∀ q, q ∈ fs'.files → q ∈ fs.files := by
  intro q hq
  rcases processMember_ok_cases h with h1 | ⟨_, _, h1 | h1⟩ <;> rw [h1] at hq
  · exact hq
  · exact (List.mem_filter.mp hq).1
  · exact (List.mem_filter.mp (List.mem_filter.mp hq).1).1

lemma processMember_blocked {fs fs' : FS} {m : Path}
    (h : processMember fs m = .ok fs') : fs'.blocked = fs.blocked := by
  rcases processMember_ok_cases h with h1 | ⟨_, _, h1 | h1⟩ <;> rw [h1]

lemma processMember_keeps {fs fs' : FS} {m q : Path}
    (h : processMember fs m = .ok fs') (hq : q ∈ fs.files) (h1 : q ≠ m)
    (h2 : q ≠ whNewpath m) : q ∈ fs'.files := by
  rcases processMember_ok_cases h with h3 | ⟨_, _, h3 | h3⟩ <;> rw [h3]
  · exact hq
  · exact List.mem_filter.mpr ⟨hq, by simpa using h1⟩
  · exact List.mem_filter.mpr ⟨List.mem_filter.mpr ⟨hq, by simpa using h1⟩, by simpa using h2⟩

lemma processMember_whiteout_removes {fs fs' : FS} {m : Path}
    (hw : isWhiteoutPath m = true) (hm : m ∈ fs.files)
    (hbm : ∀ e, lookupBlocked fs.blocked m = some e → e ≠ ENOENT)
    (hbt : ∀ e, lookupBlocked fs.blocked (whNewpath m) = some e → e ≠ ENOENT)
    (h : processMember fs m = .ok fs') :
    m ∉ fs'.files ∧ whNewpath m ∉ fs'.files := by
  unfold processMember at h
  rw [if_pos hw] at h
  cases hu : unlinkFS fs m with
  | error e =>
    have he : lookupBlocked fs.blocked m = some e := by
      unfold unlinkFS at hu
      cases hb : lookupBlocked fs.blocked m with
      | some e' =>
        rw [hb] at hu
        dsimp only at hu
        injection hu with h2
        rw [h2]
      | none =>
        rw [hb] at hu
        dsimp only at hu
        rw [if_pos hm] at hu
        exact absurd hu (by simp)
    rw [hu] at h
    dsimp only at h
    rw [if_neg (hbm e he)] at h
    exact absurd h (by simp)
  | ok fs1 =>
    obtain ⟨hb0, _, hfs1⟩ := unlinkFS_ok hu
    subst hfs1
    rw [hu] at h
    dsimp only at h
    have hmnot : m ∉ (FS.mk (fs.files.filter (fun q => decide (q ≠ m))) fs.blocked).files := by
      simp
    cases hu2 : unlinkFS ⟨fs.files.filter (fun q => decide (q ≠ m)), fs.blocked⟩ (whNewpath m) with
    | error e =>
      rw [hu2] at h
      dsimp only at h
      by_cases he : e = ENOENT
      · rw [if_pos he] at h
        injection h with h2
        subst h2
        refine ⟨hmnot, ?_⟩
        unfold unlinkFS at hu2
        cases hb2 : lookupBlocked fs.blocked (whNewpath m) with
        | some e' =>
          rw [show lookupBlocked (FS.mk (fs.files.filter (fun q => decide (q ≠ m))) fs.blocked).blocked (whNewpath m) = some e' from hb2] at hu2
          dsimp only at hu2
          injection hu2 with h3
          exact absurd (h3 ▸ he) (hbt e' hb2)
        | none =>
          rw [show lookupBlocked (FS.mk (fs.files.filter (fun q => decide (q ≠ m))) fs.blocked).blocked (whNewpath m) = none from hb2] at hu2
          dsimp only at hu2
          by_cases hm2 : whNewpath m ∈ (FS.mk (fs.files.filter (fun q => decide (q ≠ m))) fs.blocked).files
          · rw [if_pos hm2] at hu2; exact absurd hu2 (by simp)
          · exact hm2
      · rw [if_neg he] at h; exact absurd h (by simp)
    | ok fs2 =>
      obtain ⟨_, _, hfs2⟩ := unlinkFS_ok hu2
      rw [hu2] at h
      dsimp only at h
      injection h with h2
      subst h2
      subst hfs2
      constructor
      · simp
      · simp

lemma processWhiteouts_ok_cons {m : Path} {rest : List Path} {fs fs' : FS}
    (h : processWhiteouts (m :: rest) fs = .ok fs') :
    ∃ fs1, processMember fs m = .ok fs1 ∧ processWhiteouts rest fs1 = .ok fs' := by
  unfold processWhiteouts at h
  cases hp : processMember fs m with
  | ok fs1 =>
    rw [hp] at h
    exact ⟨fs1, rfl, h⟩
  | error e => rw [hp] at h; exact absurd h (by simp)

lemma processWhiteouts_mono {ms : List Path} {fs fs' : FS}
    (h : processWhiteouts ms fs = .ok fs') :
    ∀ q, q ∈ fs'.files → q ∈ fs.files := by
  induction ms generalizing fs with
  | nil =>
    unfold processWhiteouts at h
    injection h with h2
    subst h2
    exact fun q hq => hq
  | cons m rest ih =>
    obtain ⟨fs1, hp, hr⟩ := processWhiteouts_ok_cons h
    exact fun q hq => processMember_mono hp q (ih hr q hq)

lemma processWhiteouts_absent {ms : List Path} {fs fs' : FS} {q : Path}
    (h : processWhiteouts ms fs = .ok fs') (hq : q ∉ fs.files) : q ∉ fs'.files :=
  fun hx => hq (processWhiteouts_mono h q hx)

/-! ## Character-level lemmas about the whiteout path computations -/

lemma isPrefixOf_nil (l : Path) : (([] : Path)).isPrefixOf l = true := by
  cases l <;> rfl

lemma isPrefixOf_append_self (l t : Path) : l.isPrefixOf (l ++ t) = true := by
  induction l with
  | nil => exact isPrefixOf_nil _
  | cons c l' ih => simp [List.isPrefixOf, ih]

lemma hasSubstr_slashWh_mark (d x : Path) :
    hasSubstr slashWh (d ++ '/' :: (dotWh ++ x)) = true := by
  induction d with
  | nil =>
    have h1 : slashWh.isPrefixOf ('/' :: (dotWh ++ x)) = true :=
      isPrefixOf_append_self slashWh x
    show hasSubstr slashWh ('/' :: (dotWh ++ x)) = true
    simp [hasSubstr, h1]
  | cons c d' ih =>
    show hasSubstr slashWh (c :: (d' ++ '/' :: (dotWh ++ x))) = true
    simp [hasSubstr, ih]

lemma isWhiteoutPath_markOf (dOpt : Option Path) (x : Path) :
    isWhiteoutPath (markOf dOpt x) = true := by
  cases dOpt with
  | none => simp [isWhiteoutPath, markOf, isPrefixOf_append_self]
  | some d => simp [isWhiteoutPath, markOf, hasSubstr_slashWh_mark]

lemma dotWh_not_prefix_dir (d t : Path) (hd : dotWh.isPrefixOf d = false) :
    dotWh.isPrefixOf (d ++ '/' :: t) = false := by
  rcases d with _ | ⟨a, _ | ⟨b, _ | ⟨c, _ | ⟨e, d'⟩⟩⟩⟩
  · rfl
  · exact Bool.and_false _
  · show (('.' == a) && (('w' == b) && false)) = false
    simp
  · show (('.' == a) && (('w' == b) && (('h' == c) && false))) = false
    simp
  · show (('.' == a) && (('w' == b) && (('h' == c) && (('.' == e)
        && List.isPrefixOf [] (d' ++ '/' :: t))))) = false
    have hd' : (('.' == a) && (('w' == b) && (('h' == c) && (('.' == e)
        && List.isPrefixOf ([] : Path) d')))) = false := hd
    rw [isPrefixOf_nil] at hd' ⊢
    exact hd'

lemma slashWh_not_prefix_dir (d t : Path) (hne : d ≠ [])
    (hd : hasSubstr slashWh d = false) :
    slashWh.isPrefixOf (d ++ '/' :: t) = false := by
  rcases d with _ | ⟨a, _ | ⟨b, _ | ⟨c, _ | ⟨e, _ | ⟨f, d'⟩⟩⟩⟩⟩
  · exact absurd rfl hne
  · exact Bool.and_false _
  · show (('/' == a) && (('.' == b) && false)) = false
    simp
  · show (('/' == a) && (('.' == b) && (('w' == c) && false))) = false
    simp
  · show (('/' == a) && (('.' == b) && (('w' == c) && (('h' == e) && false)))) = false
    simp
  · have h1 : slashWh.isPrefixOf (a :: b :: c :: e :: f :: d') = false := by
      cases hx : slashWh.isPrefixOf (a :: b :: c :: e :: f :: d') with
      | false => rfl
      | true =>
        have hcon : hasSubstr slashWh (a :: b :: c :: e :: f :: d') = true := by
          show (slashWh.isPrefixOf (a :: b :: c :: e :: f :: d')
                  || hasSubstr slashWh (b :: c :: e :: f :: d')) = true
          rw [hx, Bool.true_or]
        rw [hcon] at hd
        exact absurd hd (by simp)
    show (('/' == a) && (('.' == b) && (('w' == c) && (('h' == e) && (('.' == f)
        && List.isPrefixOf [] (d' ++ '/' :: t)))))) = false
    have h1' : (('/' == a) && (('.' == b) && (('w' == c) && (('h' == e) && (('.' == f)
        && List.isPrefixOf ([] : Path) d'))))) = false := h1
    rw [isPrefixOf_nil] at h1' ⊢
    exact h1'

lemma replaceSlashWh_no_slash (x : Path) (hx : ('/' : Char) ∉ x) :
    replaceSlashWh x = x := by
  induction x with
  | nil => simp [replaceSlashWh]
  | cons c rest ih =>
    have hc : ('/' == c) = false := by
      simp only [beq_eq_false_iff_ne, ne_eq]
      intro hcc
      exact hx (by rw [hcc]; exact List.mem_cons_self _ _)
    have hpre : slashWh.isPrefixOf (c :: rest) = false := by
      show (('/' == c) && dotWh.isPrefixOf rest) = false
      rw [hc, Bool.false_and]
    have ih' := ih (fun hmem => hx (List.mem_cons_of_mem c hmem))
    simp only [replaceSlashWh, hpre, Bool.false_eq_true, if_false, ih']

lemma replaceSlashWh_mark (d x : Path) (hd : hasSubstr slashWh d = false)
    (hx : ('/' : Char) ∉ x) :
    replaceSlashWh (d ++ '/' :: (dotWh ++ x)) = d ++ '/' :: x := by
  induction d with
  | nil =>
    have hp : slashWh.isPrefixOf ('/' :: (dotWh ++ x)) = true :=
      isPrefixOf_append_self slashWh x
    show replaceSlashWh ('/' :: (dotWh ++ x)) = '/' :: x
    simp only [replaceSlashWh, hp, if_true]
    show ('/' : Char) :: replaceSlashWh x = '/' :: x
    rw [replaceSlashWh_no_slash x hx]
  | cons c d' ih =>
    have hsplit : slashWh.isPrefixOf (c :: d') = false ∧ hasSubstr slashWh d' = false := by
      have : (slashWh.isPrefixOf (c :: d') || hasSubstr slashWh d') = false := hd
      exact ⟨by cases hy : slashWh.isPrefixOf (c :: d') <;> simp_all,
             by cases hy : hasSubstr slashWh d' <;> simp_all⟩
    have hp : slashWh.isPrefixOf ((c :: d') ++ '/' :: (dotWh ++ x)) = false :=
      slashWh_not_prefix_dir (c :: d') (dotWh ++ x) (by simp) hd
    show replaceSlashWh (c :: (d' ++ '/' :: (dotWh ++ x))) = c :: (d' ++ '/' :: x)
    simp only [replaceSlashWh,
      show slashWh.isPrefixOf (c :: (d' ++ '/' :: (dotWh ++ x))) = false from hp,
      Bool.false_eq_true, if_false]
    rw [ih hsplit.2]

lemma whNewpath_markOf (dOpt : Option Path) (x : Path) (hx : ('/' : Char) ∉ x)
    (hD : ∀ d, dOpt = some d → hasSubstr slashWh d = false ∧ dotWh.isPrefixOf d = false) :
    whNewpath (markOf dOpt x) = targOf dOpt x := by
  cases dOpt with
  | none =>
    show whNewpath (dotWh ++ x) = x
    unfold whNewpath
    rw [isPrefixOf_append_self dotWh x]
    rfl
  | some d =>
    obtain ⟨h1, h2⟩ := hD d rfl
    show whNewpath (d ++ '/' :: (dotWh ++ x)) = d ++ '/' :: x
    unfold whNewpath
    rw [dotWh_not_prefix_dir d _ h2]
    simp only [Bool.false_eq_true, if_false]
    exact replaceSlashWh_mark d x h1 hx

/-! ## The C1 induction -/

lemma whiteout_removed_aux (mark targ : Path)
    (hw : isWhiteoutPath mark = true)
    (hnp : whNewpath mark = targ) :
    ∀ (pre post : List Path) (fs₀ fs' : FS),
      mark ∈ fs₀.files →
      (∀ e, lookupBlocked fs₀.blocked mark = some e → e ≠ ENOENT) →
      (∀ e, lookupBlocked fs₀.blocked targ = some e → e ≠ ENOENT) →
      (∀ m ∈ pre, isWhiteoutPath m = true → whNewpath m ≠ mark) →
      processWhiteouts (pre ++ mark :: post) fs₀ = .ok fs' →
      mark ∉ fs'.files ∧ targ ∉ fs'.files := by
  intro pre
  induction pre with
  | nil =>
    intro post fs₀ fs' hmem hbm hbt _ hrun
    obtain ⟨fs1, hpm, hrest⟩ := processWhiteouts_ok_cons hrun
    obtain ⟨ha, hb⟩ := processMember_whiteout_removes hw hmem hbm (hnp ▸ hbt) hpm
    exact ⟨processWhiteouts_absent hrest ha, processWhiteouts_absent hrest (hnp ▸ hb)⟩
  | cons m pre' ih =>
    intro post fs₀ fs' hmem hbm hbt hpre hrun
    obtain ⟨fs1, hpm, hrest⟩ := processWhiteouts_ok_cons hrun
    by_cases hmm : m = mark
    · subst hmm
      obtain ⟨ha, hb⟩ := processMember_whiteout_removes hw hmem hbm (hnp ▸ hbt) hpm
      exact ⟨processWhiteouts_absent hrest ha, processWhiteouts_absent hrest (hnp ▸ hb)⟩
    · have hkeep : mark ∈ fs1.files := by
        by_cases hwm : isWhiteoutPath m = true
        · exact processMember_keeps hpm hmem (fun hh => hmm hh.symm)
            (fun hh => hpre m (List.mem_cons_self _ _) hwm hh.symm)
        · rcases processMember_ok_cases hpm with h1 | ⟨h1, _⟩
          · rw [h1]; exact hmem
          · exact absurd h1 hwm
      have hbl := processMember_blocked hpm
      exact ih post fs1 fs' hkeep (hbl ▸ hbm) (hbl ▸ hbt)
        (fun q hq => hpre q (List.mem_cons_of_mem m hq)) hrest

lemma unlinkFS_eq_ok {fs : FS} {p : Path} (hb : lookupBlocked fs.blocked p = none)
    (hm : p ∈ fs.files) :
    unlinkFS fs p = .ok ⟨fs.files.filter (fun q => decide (q ≠ p)), fs.blocked⟩ := by
  unfold unlinkFS
  rw [hb]
  dsimp only
  rw [if_pos hm]

lemma unlinkFS_eq_err_blocked {fs : FS} {p : Path} {e : Nat}
    (hb : lookupBlocked fs.blocked p = some e) : unlinkFS fs p = .error e := by
  unfold unlinkFS
  rw [hb]

lemma unlinkFS_eq_err_missing {fs : FS} {p : Path}
    (hb : lookupBlocked fs.blocked p = none) (hm : p ∉ fs.files) :
    unlinkFS fs p = .error ENOENT := by
  unfold unlinkFS
  rw [hb]
  dsimp only
  rw [if_neg hm]

/-- C1 (amended): for every layer entry whose final path segment begins with
the whiteout prefix (marker `.wh.X` in directory `D`, `D` possibly the root),
provided the prefix occurs nowhere else in the path (`D` neither begins with
`.wh.` nor contains `/.wh.`), the marker is in the tree initially and is not
the deletion target of an earlier whiteout of the same layer, deletion failures
at the marker or the target are not spurious missing-file errors for present
files, and the layer's whiteout processing completes without error, then
afterwards neither `D/.wh.X` nor `D/X` exists in the output tree, regardless of
whether `D/X` existed before. Without the only-final-segment proviso the claim
is false — see the counterexample. -/
theorem whiteout_marker_and_target_removed
    (pre post : List Path) (dOpt : Option Path) (x : Path) (fs₀ fs' : FS)
    (hx : ('/' : Char) ∉ x)
    (hD : ∀ d, dOpt = some d → hasSubstr slashWh d = false ∧ dotWh.isPrefixOf d = false)
    (hmem : markOf dOpt x ∈ fs₀.files)
    (hbm : ∀ e, lookupBlocked fs₀.blocked (markOf dOpt x) = some e → e ≠ ENOENT)
    (hbt : ∀ e, lookupBlocked fs₀.blocked (targOf dOpt x) = some e → e ≠ ENOENT)
    (hpre : ∀ m ∈ pre, isWhiteoutPath m = true → whNewpath m ≠ markOf dOpt x)
    (hrun : processWhiteouts (pre ++ markOf dOpt x :: post) fs₀ = .ok fs') :
    markOf dOpt x ∉ fs'.files ∧ targOf dOpt x ∉ fs'.files :=
  whiteout_removed_aux (markOf dOpt x) (targOf dOpt x) (isWhiteoutPath_markOf dOpt x)
    (whNewpath_markOf dOpt x hx hD) pre post fs₀ fs' hmem hbm hbt hpre hrun

/-- C1 witness: the root marker `.wh.b` processed on the tree holding the
marker and the target `b`; afterwards neither exists. -/
theorem whiteout_marker_and_target_removed_witness :
    markOf none ['b'] ∉ (FS.mk [] []).files ∧ targOf none ['b'] ∉ (FS.mk [] []).files :=
  whiteout_marker_and_target_removed [] [] none ['b']
    ⟨[markOf none ['b'], ['b']], []⟩ ⟨[], []⟩
    (by decide)
    (fun _ hd => nomatch hd)
    (by decide)
    (fun _ he => nomatch he)
    (fun _ he => nomatch he)
    (fun _ hm => absurd hm (List.not_mem_nil _))
    (by rfl)

/-- C1 counterexample: the layer consisting of the single marker
`.wh.d/.wh.f` — its final segment begins with `.wh.`, the directory part is
`D = .wh.d`, the target is `D/f = .wh.d/f`. Processing the layer on the tree
containing the marker and the target completes, yet the target survives: the
code took the `startswith` branch and unlinked `d/.wh.f` instead. -/
theorem whiteout_nested_prefix_counterexample :
    processWhiteouts [markOf (some ['.', 'w', 'h', '.', 'd']) ['f']]
        ⟨[markOf (some ['.', 'w', 'h', '.', 'd']) ['f'],
          targOf (some ['.', 'w', 'h', '.', 'd']) ['f']], []⟩
      = .ok ⟨[targOf (some ['.', 'w', 'h', '.', 'd']) ['f']], []⟩
    ∧ targOf (some ['.', 'w', 'h', '.', 'd']) ['f']
        ∈ (FS.mk [targOf (some ['.', 'w', 'h', '.', 'd']) ['f']] []).files :=
  ⟨rfl, by decide⟩

/-- C7: during whiteout processing, a deletion target that does not exist is
not an error — the marker is removed, the missing-target error is swallowed,
and processing continues with the remaining members on the updated tree —
while a deletion failure with any errno other than `ENOENT` propagates and
aborts the run. -/
theorem whiteout_error_policy :
    (∀ (fs : FS) (m : Path) (rest : List Path),
        isWhiteoutPath m = true →
        lookupBlocked fs.blocked m = none →
        m ∈ fs.files →
        lookupBlocked fs.blocked (whNewpath m) = none →
        whNewpath m ∉ fs.files →
        processWhiteouts (m :: rest) fs =
          processWhiteouts rest ⟨fs.files.filter (fun q => decide (q ≠ m)), fs.blocked⟩)
    ∧ (∀ (fs : FS) (m : Path) (rest : List Path) (e : Nat),
        isWhiteoutPath m = true →
        lookupBlocked fs.blocked m = none →
        m ∈ fs.files →
        lookupBlocked fs.blocked (whNewpath m) = some e →
        e ≠ ENOENT →
        processWhiteouts (m :: rest) fs = .error e) := by
  constructor
  · intro fs m rest hw hbm hm hbt hnt
    have h1 := unlinkFS_eq_ok hbm hm
    have hnot1 : whNewpath m ∉ (fs.files.filter (fun q => decide (q ≠ m))) :=
      fun hx => hnt (List.mem_filter.mp hx).1
    have h2 : unlinkFS ⟨fs.files.filter (fun q => decide (q ≠ m)), fs.blocked⟩ (whNewpath m)
        = .error ENOENT := unlinkFS_eq_err_missing hbt hnot1
    have hpm : processMember fs m
        = .ok ⟨fs.files.filter (fun q => decide (q ≠ m)), fs.blocked⟩ := by
      unfold processMember
      rw [if_pos hw, h1]
      dsimp only
      rw [h2]
      dsimp only
      rw [if_pos rfl]
    show (match processMember fs m with
          | .ok fs1 => processWhiteouts rest fs1
          | .error e => Except.error e) = _
    rw [hpm]
  · intro fs m rest e hw hbm hm hbt hne
    have h1 := unlinkFS_eq_ok hbm hm
    have h2 : unlinkFS ⟨fs.files.filter (fun q => decide (q ≠ m)), fs.blocked⟩ (whNewpath m)
        = .error e := unlinkFS_eq_err_blocked hbt
    have hpm : processMember fs m = .error e := by
      unfold processMember
      rw [if_pos hw, h1]
      dsimp only
      rw [h2]
      dsimp only
      rw [if_neg hne]
    show (match processMember fs m with
          | .ok fs1 => processWhiteouts rest fs1
          | .error e => Except.error e) = Except.error e
    rw [hpm]

/-- C7 witness: the marker `.wh.a` with target `a` absent is processed without
error and processing continues; with the target's unlink blocked by errno 13
(permission denied), the run aborts with that error. -/
theorem whiteout_error_policy_witness :
    processWhiteouts [['.', 'w', 'h', '.', 'a']] ⟨[['.', 'w', 'h', '.', 'a']], []⟩
      = processWhiteouts []
          ⟨(FS.mk [['.', 'w', 'h', '.', 'a']] []).files.filter
              (fun q => decide (q ≠ ['.', 'w', 'h', '.', 'a'])),
            (FS.mk [['.', 'w', 'h', '.', 'a']] []).blocked⟩
    ∧ processWhiteouts [['.', 'w', 'h', '.', 'a']]
          ⟨[['.', 'w', 'h', '.', 'a']], [(['a'], 13)]⟩ = .error 13 :=
  ⟨whiteout_error_policy.1 ⟨[['.', 'w', 'h', '.', 'a']], []⟩ ['.', 'w', 'h', '.', 'a'] []
      (by decide) (by rfl) (by decide) (by rfl) (by decide),
   whiteout_error_policy.2 ⟨[['.', 'w', 'h', '.', 'a']], [(['a'], 13)]⟩
      ['.', 'w', 'h', '.', 'a'] [] 13
      (by decide) (by rfl) (by decide) (by rfl) (by decide)⟩

/-! ## Lemmas about the post-pass fold -/

/-- The chmod call a single deferred directory contributes (when its
attribute application succeeds). -/
def chmodOf (outcome : TarInfo → AttrResult) (root : Path) (d : TarInfo) :
    Option (Path × Nat) :=
  if outcome d = .ok then some (pathJoin root d.name, appliedMode d) else none

/-- Whether a single deferred directory gets its `mode` field mutated in
place: `chown` and `utime` succeeded and the directory bit is set. -/
def mutatedPred (outcome : TarInfo → AttrResult) (d : TarInfo) : Bool :=
  decide (d.mode &&& DIRECTORY_MODE ≠ 0)
    && (decide (outcome d = .ok) || decide (outcome d = .chmodFail))

lemma postStep_raised_false {lvl : Nat} (hlvl : lvl ≤ 1)
    (outcome : TarInfo → AttrResult) (root : Path) (st : PostState) (d : TarInfo)
    (h : st.raised = false) : (postStep lvl outcome root st d).raised = false := by
  have hdec : decide (1 < lvl) = false := decide_eq_false (by omega)
  unfold postStep
  rw [if_neg (by simp [h])]
  cases h2 : outcome d <;> simp [hdec, h]

lemma postStep_chmods (lvl : Nat) (outcome : TarInfo → AttrResult) (root : Path)
    (st : PostState) (d : TarInfo) (h : st.raised = false) :
    (postStep lvl outcome root st d).chmods
      = st.chmods ++ (chmodOf outcome root d).toList := by
  unfold postStep chmodOf
  rw [if_neg (by simp [h])]
  cases h2 : outcome d <;> simp [h2]

lemma postStep_mutated (lvl : Nat) (outcome : TarInfo → AttrResult) (root : Path)
    (st : PostState) (d : TarInfo) (h : st.raised = false) :
    (postStep lvl outcome root st d).mutated
      = st.mutated ++ (if mutatedPred outcome d = true then [d] else []) := by
  unfold postStep mutatedPred
  rw [if_neg (by simp [h])]
  cases h2 : outcome d <;>
    by_cases hb : d.mode &&& DIRECTORY_MODE ≠ 0 <;>
      simp [h2, hb]

lemma postPass_foldl_chmods {lvl : Nat} (hlvl : lvl ≤ 1)
    (outcome : TarInfo → AttrResult) (root : Path) :
    ∀ (dirs : List TarInfo) (st : PostState), st.raised = false →
      (List.foldl (postStep lvl outcome root) st dirs).chmods
        = st.chmods ++ dirs.filterMap (chmodOf outcome root) := by
  intro dirs
  induction dirs with
  | nil => intro st h; simp
  | cons d ds ih =>
    intro st h
    show (List.foldl (postStep lvl outcome root) (postStep lvl outcome root st d) ds).chmods = _
    rw [ih _ (postStep_raised_false hlvl outcome root st d h),
      postStep_chmods lvl outcome root st d h, List.filterMap_cons]
    cases h2 : chmodOf outcome root d <;> simp

lemma postPass_foldl_mutated {lvl : Nat} (hlvl : lvl ≤ 1)
    (outcome : TarInfo → AttrResult) (root : Path) :
    ∀ (dirs : List TarInfo) (st : PostState), st.raised = false →
      (List.foldl (postStep lvl outcome root) st dirs).mutated
        = st.mutated ++ dirs.filter (mutatedPred outcome) := by
  intro dirs
  induction dirs with
  | nil => intro st h; simp
  | cons d ds ih =>
    intro st h
    show (List.foldl (postStep lvl outcome root) (postStep lvl outcome root st d) ds).mutated = _
    rw [ih _ (postStep_raised_false hlvl outcome root st d h),
      postStep_mutated lvl outcome root st d h, List.filter_cons]
    by_cases h2 : mutatedPred outcome d = true <;> simp [h2]

lemma postPass_foldl_raised_false {lvl : Nat} (hlvl : lvl ≤ 1)
    (outcome : TarInfo → AttrResult) (root : Path) :
    ∀ (dirs : List TarInfo) (st : PostState), st.raised = false →
      (List.foldl (postStep lvl outcome root) st dirs).raised = false := by
  intro dirs
  induction dirs with
  | nil => intro st h; exact h
  | cons d ds ih =>
    intro st h
    exact ih _ (postStep_raised_false hlvl outcome root st d h)

lemma postPass_foldl_raised_stuck {lvl : Nat} {outcome : TarInfo → AttrResult}
    {root : Path} :
    ∀ (dirs : List TarInfo) (st : PostState), st.raised = true →
      List.foldl (postStep lvl outcome root) st dirs = st := by
  intro dirs
  induction dirs with
  | nil => intro st _; rfl
  | cons d ds ih =>
    intro st h
    show List.foldl (postStep lvl outcome root) (postStep lvl outcome root st d) ds = st
    have hstep : postStep lvl outcome root st d = st := by
      unfold postStep
      rw [if_pos h]
    rw [hstep]
    exact ih st h

lemma errorlevelOf_le_one (ig : Bool) : errorlevelOf ig ≤ 1 := by
  cases ig <;> simp [errorlevelOf]

lemma chmods_mem (ig : Bool) (outcome : TarInfo → AttrResult) (root : Path)
    (dirs : List TarInfo) (d : TarInfo) (hd : d ∈ dirs) (ho : outcome d = .ok) :
    (pathJoin root d.name, appliedMode d)
      ∈ (postPass (errorlevelOf ig) outcome root dirs).chmods := by
  unfold postPass
  rw [postPass_foldl_chmods (errorlevelOf_le_one ig) outcome root dirs ⟨[], [], false⟩ rfl]
  simp only [List.nil_append, List.mem_filterMap]
  exact ⟨d, hd, by simp [chmodOf, ho]⟩

/-! ## Lemmas about the sort order of the deferred directories -/

lemma mem_insertTI {d q : TarInfo} {l : List TarInfo} :
    q ∈ insertTI d l ↔ q = d ∨ q ∈ l := by
  induction l with
  | nil => simp [insertTI]
  | cons e es ih =>
    unfold insertTI
    by_cases hle : charListLe d.name e.name = true
    · rw [if_pos hle]
      simp
    · rw [if_neg hle]
      simp only [List.mem_cons, ih]
      tauto

lemma mem_sortByName {q : TarInfo} {l : List TarInfo} :
    q ∈ sortByName l ↔ q ∈ l := by
  induction l with
  | nil => simp [sortByName]
  | cons d ds ih =>
    show q ∈ insertTI d (sortByName ds) ↔ _
    rw [mem_insertTI, ih]
    simp

lemma mem_applyOrder {q : TarInfo} {members : List TarInfo} :
    q ∈ applyOrder members ↔ q ∈ members ∧ q.isdir = true := by
  unfold applyOrder deferredDirs
  rw [List.mem_reverse, mem_sortByName, List.mem_filter]

lemma charListLe_total (a b : Path) : charListLe a b = true ∨ charListLe b a = true := by
  induction a generalizing b with
  | nil => left; cases b <;> rfl
  | cons c as ih =>
    cases b with
    | nil => right; rfl
    | cons e bs =>
      by_cases hce : c = e
      · subst hce
        rcases ih bs with h | h
        · left; show (if c = c then charListLe as bs else _) = true; rw [if_pos rfl]; exact h
        · right; show (if c = c then charListLe bs as else _) = true; rw [if_pos rfl]; exact h
      · rcases lt_trichotomy c e with hlt | heq | hgt
        · left
          show (if c = e then _ else decide (c < e)) = true
          rw [if_neg hce]
          simp [hlt]
        · exact absurd heq hce
        · right
          show (if e = c then _ else decide (e < c)) = true
          rw [if_neg (Ne.symm hce)]
          simp [hgt]

lemma charListLe_trans {a b c : Path} (h1 : charListLe a b = true)
    (h2 : charListLe b c = true) : charListLe a c = true := by
  induction a generalizing b c with
  | nil => cases c <;> rfl
  | cons x as ih =>
    cases b with
    | nil => simp [charListLe] at h1
    | cons y bs =>
      cases c with
      | nil => simp [charListLe] at h2
      | cons z cs =>
        have h1' : (if x = y then charListLe as bs else decide (x < y)) = true := h1
        have h2' : (if y = z then charListLe bs cs else decide (y < z)) = true := h2
        by_cases hxy : x = y
        · subst hxy
          rw [if_pos rfl] at h1'
          by_cases hyz : x = z
          · subst hyz
            rw [if_pos rfl] at h2'
            show (if x = x then charListLe as cs else _) = true
            rw [if_pos rfl]
            exact ih h1' h2'
          · rw [if_neg hyz] at h2'
            show (if x = z then charListLe as cs else decide (x < z)) = true
            rw [if_neg hyz]
            exact h2'
        · rw [if_neg hxy] at h1'
          have hlt1 : x < y := by simpa using h1'
          by_cases hyz : y = z
          · subst hyz
            show (if x = y then charListLe as cs else decide (x < y)) = true
            rw [if_neg hxy]
            simp [hlt1]
          · rw [if_neg hyz] at h2'
            have hlt2 : y < z := by simpa using h2'
            have hlt : x < z := lt_trans hlt1 hlt2
            show (if x = z then charListLe as cs else decide (x < z)) = true
            rw [if_neg (ne_of_lt hlt)]
            simp [hlt]

lemma pairwise_insertTI {d : TarInfo} {l : List TarInfo}
    (h : l.Pairwise (fun a b => charListLe a.name b.name = true)) :
    (insertTI d l).Pairwise (fun a b => charListLe a.name b.name = true) := by
  induction l with
  | nil => simp [insertTI]
  | cons e es ih =>
    rw [List.pairwise_cons] at h
    obtain ⟨he, hes⟩ := h
    unfold insertTI
    by_cases hle : charListLe d.name e.name = true
    · rw [if_pos hle]
      refine List.Pairwise.cons ?_ (List.Pairwise.cons he hes)
      intro q hq
      rcases List.mem_cons.mp hq with rfl | hq'
      · exact hle
      · exact charListLe_trans hle (he q hq')
    · rw [if_neg hle]
      refine List.Pairwise.cons ?_ (ih hes)
      intro q hq
      rcases mem_insertTI.mp hq with rfl | hq'
      · rcases charListLe_total q.name e.name with h | h
        · exact absurd h hle
        · exact h
      · exact he q hq'

lemma pairwise_sortByName (l : List TarInfo) :
    (sortByName l).Pairwise (fun a b => charListLe a.name b.name = true) := by
  induction l with
  | nil => simp [sortByName]
  | cons d ds ih => exact pairwise_insertTI ih

lemma charListLe_self_append (p t : Path) : charListLe p (p ++ t) = true := by
  induction p with
  | nil => cases t <;> rfl
  | cons c p' ih =>
    show (if c = c then charListLe p' (p' ++ t) else _) = true
    rw [if_pos rfl]
    exact ih

lemma charListLe_append_cons_self (p : Path) (c : Char) (t : Path) :
    charListLe (p ++ c :: t) p = false := by
  induction p with
  | nil => rfl
  | cons e p' ih =>
    show (if e = e then charListLe (p' ++ c :: t) p' else _) = false
    rw [if_pos rfl]
    exact ih

lemma lor_land_testBit_ne_zero (m a b i : Nat)
    (ha : a.testBit i = true) (hb : b.testBit i = true) : (m ||| a) &&& b ≠ 0 := by
  intro h
  have h7 : ((m ||| a) &&& b).testBit i = false := by
    rw [h]
    exact Nat.zero_testBit i
  rw [Nat.testBit_land, Nat.testBit_lor, ha, hb] at h7
  simp at h7

/-- C4 (amended): for every deferred directory whose attribute application
succeeds and whose recorded mode has the directory kind bit set, the final
on-disk mode applied in the post-pass is the recorded mode OR-ed with
`OWNER_WRITE` (0o202) — in particular it includes the owner-write permission
bit 0o200. (It is not the recorded mode with only owner-write forced on: the
OR also forces other-write, see the counterexample.) -/
theorem dir_mode_applied_includes_owner_write
    (ig : Bool) (outcome : TarInfo → AttrResult) (root : Path)
    (members : List TarInfo) (d : TarInfo)
    (hd : d ∈ members) (hdir : d.isdir = true)
    (ho : outcome d = .ok) (hb : d.mode &&& DIRECTORY_MODE ≠ 0) :
    (pathJoin root d.name, d.mode ||| OWNER_WRITE)
        ∈ (postPass (errorlevelOf ig) outcome root (applyOrder members)).chmods
    ∧ (d.mode ||| OWNER_WRITE) &&& 0o200 ≠ 0 := by
  constructor
  · have hmem : d ∈ applyOrder members := mem_applyOrder.mpr ⟨hd, hdir⟩
    have h := chmods_mem ig outcome root _ d hmem ho
    unfold appliedMode at h
    rw [if_pos hb] at h
    exact h
  · exact lor_land_testBit_ne_zero d.mode OWNER_WRITE 0o200 7 (by decide) (by decide)

/-- C4 witness: a directory with recorded mode 0o40700, attribute application
succeeding: the chmod applied 0o40700 ||| 0o202 and it includes owner-write. -/
theorem dir_mode_applied_includes_owner_write_witness :
    (pathJoin [] ['a'], 0o40700 ||| OWNER_WRITE)
        ∈ (postPass (errorlevelOf false) (fun _ => .ok) []
            (applyOrder [⟨['a'], true, 0o40700⟩])).chmods
    ∧ ((0o40700 : Nat) ||| OWNER_WRITE) &&& 0o200 ≠ 0 :=
  dir_mode_applied_includes_owner_write false (fun _ => .ok) []
    [⟨['a'], true, 0o40700⟩] ⟨['a'], true, 0o40700⟩
    (by decide) rfl rfl (by decide)

/-- C4 counterexample: recorded mode 0o40700 (directory bit set, no group or
other permissions). The post-pass applies 0o40702, which differs from the
recorded mode with only the owner-write bit forced on (0o40700 ||| 0o200 =
0o40700): the claim's equality fails. -/
theorem dir_mode_exact_or_counterexample :
    (postPass (errorlevelOf false) (fun _ => .ok) []
        (applyOrder [⟨['a'], true, 0o40700⟩])).chmods
      = [(['a'], 0o40702)]
    ∧ (0o40702 : Nat) ≠ 0o40700 ||| 0o200 :=
  ⟨rfl, by decide⟩

/-- C5: within a layer, deferred directory attributes are applied in
descending lexicographic path order, so any deferred directory named
`p ++ '/' :: s` is finalized strictly before any deferred directory named
`p` (every directory before each of its ancestors). -/
theorem dir_attrs_child_before_parent
    (members : List TarInfo) (p s : Path)
    (i j : Fin (applyOrder members).length)
    (hc : ((applyOrder members).get i).name = p ++ '/' :: s)
    (hp : ((applyOrder members).get j).name = p) :
    (i : Nat) < (j : Nat) := by
  have hpair : (applyOrder members).Pairwise
      (fun a b => charListLe b.name a.name = true) := by
    unfold applyOrder
    rw [List.pairwise_reverse]
    exact pairwise_sortByName _
  rcases Nat.lt_trichotomy (i : Nat) (j : Nat) with h | h | h
  · exact h
  · exfalso
    have hij : (applyOrder members).get i = (applyOrder members).get j := by
      congr 1
      exact Fin.ext h
    rw [hij, hp] at hc
    have := congrArg List.length hc
    simp at this
  · exfalso
    have hrel := List.pairwise_iff_get.mp hpair j i h
    rw [hc, hp] at hrel
    rw [charListLe_append_cons_self] at hrel
    exact absurd hrel (by simp)

/-- C5 witness: deferred directories `a` and `a/b`; the application order is
`[a/b, a]` and the child's index 0 precedes the parent's index 1. -/
theorem dir_attrs_child_before_parent_witness :
    (0 : Nat) < (1 : Nat)
    ∧ applyOrder [⟨['a'], true, 0o40755⟩, ⟨['a', '/', 'b'], true, 0o40755⟩]
        = [⟨['a', '/', 'b'], true, 0o40755⟩, ⟨['a'], true, 0o40755⟩] :=
  ⟨dir_attrs_child_before_parent
      [⟨['a'], true, 0o40755⟩, ⟨['a', '/', 'b'], true, 0o40755⟩] ['a'] ['b']
      ⟨0, by decide⟩ ⟨1, by decide⟩ (by decide) (by decide),
    rfl⟩

/-- C6 (amended): attribute-application failures in the post-pass are
swallowed and logged under BOTH settings of the strictness flag — the flag
maps to error levels 0 (`--ignore-errors`) and 1 (default), and the post-pass
never raises at level ≤ 1 while later directories are still processed — and a
failure propagates and aborts the post-pass only at error levels above 1,
which the orchestrator never requests. -/
theorem postpass_failure_swallowed_both_levels :
    (∀ (ig : Bool) (outcome : TarInfo → AttrResult) (root : Path)
        (dirs : List TarInfo),
        (postPass (errorlevelOf ig) outcome root dirs).raised = false)
    ∧ (∀ (ig : Bool) (outcome : TarInfo → AttrResult) (root : Path)
        (dirs : List TarInfo) (d : TarInfo),
        (postPass (errorlevelOf ig) outcome root (dirs ++ [d])).chmods
          = (postPass (errorlevelOf ig) outcome root dirs).chmods
            ++ (if outcome d = .ok then [(pathJoin root d.name, appliedMode d)] else []))
    ∧ (∀ (lvl : Nat) (outcome : TarInfo → AttrResult) (root : Path)
        (d : TarInfo) (dirs : List TarInfo),
        1 < lvl → outcome d ≠ .ok →
        (postPass lvl outcome root (d :: dirs)).raised = true
        ∧ (postPass lvl outcome root (d :: dirs)).chmods = []) := by
  refine ⟨?_, ?_, ?_⟩
  · intro ig outcome root dirs
    exact postPass_foldl_raised_false (errorlevelOf_le_one ig) outcome root dirs _ rfl
  · intro ig outcome root dirs d
    unfold postPass
    rw [postPass_foldl_chmods (errorlevelOf_le_one ig) outcome root _ ⟨[], [], false⟩ rfl,
      postPass_foldl_chmods (errorlevelOf_le_one ig) outcome root dirs ⟨[], [], false⟩ rfl,
      List.filterMap_append]
    simp only [List.nil_append, List.append_assoc]
    congr 1
    show List.filterMap (chmodOf outcome root) [d] = _
    by_cases h2 : outcome d = .ok
    · rw [if_pos h2]
      simp [chmodOf, h2]
    · rw [if_neg h2]
      simp [chmodOf, h2]
  · intro lvl outcome root d dirs hlvl hne
    have hstepr : (postStep lvl outcome root ⟨[], [], false⟩ d).raised = true := by
      unfold postStep
      rw [if_neg (by simp)]
      cases h2 : outcome d
      · exact absurd h2 hne
      all_goals simp [decide_eq_true_eq, hlvl]
    have hstepc : (postStep lvl outcome root ⟨[], [], false⟩ d).chmods = [] := by
      unfold postStep
      rw [if_neg (by simp)]
      cases h2 : outcome d
      · exact absurd h2 hne
      all_goals simp
    have hrun : postPass lvl outcome root (d :: dirs)
        = postStep lvl outcome root ⟨[], [], false⟩ d := by
      unfold postPass
      show List.foldl (postStep lvl outcome root)
          (postStep lvl outcome root ⟨[], [], false⟩ d) dirs = _
      exact postPass_foldl_raised_stuck dirs _ hstepr
    rw [hrun]
    exact ⟨hstepr, hstepc⟩

/-- C6 witness: an owner-application failure at level 1 (the default) is
swallowed, while at level 2 it raises and the post-pass stops. -/
theorem postpass_failure_swallowed_both_levels_witness :
    (postPass (errorlevelOf false) (fun _ => .utimeFail) [] [⟨['a'], true, 0⟩]).raised
      = false
    ∧ (postPass 2 (fun _ => .utimeFail) [] [⟨['a'], true, 0⟩]).raised = true
    ∧ (postPass 2 (fun _ => .utimeFail) [] [⟨['a'], true, 0⟩]).chmods = [] :=
  ⟨postpass_failure_swallowed_both_levels.1 false (fun _ => .utimeFail) []
      [⟨['a'], true, 0⟩],
    (postpass_failure_swallowed_both_levels.2.2 2 (fun _ => .utimeFail) []
        ⟨['a'], true, 0⟩ [] (by omega) (by decide)).1,
    (postpass_failure_swallowed_both_levels.2.2 2 (fun _ => .utimeFail) []
        ⟨['a'], true, 0⟩ [] (by omega) (by decide)).2⟩

/-- C6 counterexample: strict mode as requested through the CLI flag is error
level 1 (`errorlevelOf false = 1`); a chown failure on the first deferred
directory under it is swallowed — the post-pass does not raise, and the second
directory's attributes are still applied — contradicting the claim that the
failure propagates and aborts extraction in strict mode. -/
theorem strict_flag_swallows_counterexample :
    errorlevelOf false = 1
    ∧ (postPass (errorlevelOf false)
        (fun d => if d.name = ['a'] then .chownFail else .ok) []
        [⟨['b'], true, 0o40755⟩, ⟨['a'], true, 0o40755⟩]).raised = false
    ∧ (postPass (errorlevelOf false)
        (fun d => if d.name = ['a'] then .chownFail else .ok) []
        [⟨['b'], true, 0o40755⟩, ⟨['a'], true, 0o40755⟩]).chmods
      = [(['b'], 0o40757)] :=
  ⟨rfl, rfl, rfl⟩

/-- C10: the mode applied in the post-pass to every deferred directory whose
recorded mode has the directory kind bit set is the recorded mode bitwise-OR
0o202 (the `OWNER_WRITE` constant), which sets the other/world-write bit 0o002
in addition to the owner-write bit 0o200 — so the directory is made
world-writable even when its recorded mode grants no permissions to others. -/
theorem dir_mode_applied_is_or_202
    (ig : Bool) (outcome : TarInfo → AttrResult) (root : Path)
    (members : List TarInfo) (d : TarInfo)
    (hd : d ∈ members) (hdir : d.isdir = true)
    (ho : outcome d = .ok) (hb : d.mode &&& DIRECTORY_MODE ≠ 0) :
    OWNER_WRITE = 0o202
    ∧ (pathJoin root d.name, d.mode ||| 0o202)
        ∈ (postPass (errorlevelOf ig) outcome root (applyOrder members)).chmods
    ∧ (d.mode ||| 0o202) &&& 0o002 ≠ 0
    ∧ (d.mode ||| 0o202) &&& 0o200 ≠ 0 := by
  refine ⟨rfl, ?_, ?_, ?_⟩
  · exact (dir_mode_applied_includes_owner_write ig outcome root members d
      hd hdir ho hb).1
  · exact lor_land_testBit_ne_zero d.mode 0o202 0o002 1 (by decide) (by decide)
  · exact lor_land_testBit_ne_zero d.mode 0o202 0o200 7 (by decide) (by decide)

/-- C10 witness: recorded mode 0o40750 (no permissions for others at all);
the applied mode is 0o40750 ||| 0o202 = 0o40752, which is world-writable. -/
theorem dir_mode_applied_is_or_202_witness :
    OWNER_WRITE = 0o202
    ∧ (pathJoin [] ['a'], 0o40750 ||| 0o202)
        ∈ (postPass (errorlevelOf false) (fun _ => .ok) []
            (applyOrder [⟨['a'], true, 0o40750⟩])).chmods
    ∧ ((0o40750 : Nat) ||| 0o202) &&& 0o002 ≠ 0
    ∧ ((0o40750 : Nat) ||| 0o202) &&& 0o200 ≠ 0 :=
  dir_mode_applied_is_or_202 false (fun _ => .ok) []
    [⟨['a'], true, 0o40750⟩] ⟨['a'], true, 0o40750⟩
    (by decide) rfl rfl (by decide)

/-- C9 (amended): the immediate extraction of a directory uses a derived copy
(same entry with its mode replaced by `OWNER_READ_WRITE`) while the deferred
list keeps the original entry; but the post-pass then mutates the original
entry objects in place: after `extractall` the mode field of every directory
entry whose recorded mode has the directory kind bit set and whose owner and
mtime application succeeded has become the recorded mode ||| 0o202, and every
other entry is unchanged. The unamended never-mutated claim fails — see the
counterexample. -/
theorem extract_mutation_behavior
    (ig : Bool) (outcome : TarInfo → AttrResult) (root : Path)
    (members : List TarInfo) :
    (∀ m ∈ members, m.isdir = true →
        ({ m with mode := OWNER_READ_WRITE }, false) ∈ immediateCalls members
        ∧ m ∈ deferredDirs members)
    ∧ finalMembers ig outcome root members
        = members.map (fun m =>
            if m.isdir = true ∧ m.mode &&& DIRECTORY_MODE ≠ 0
                ∧ (outcome m = .ok ∨ outcome m = .chmodFail)
            then { m with mode := m.mode ||| OWNER_WRITE } else m) := by
  constructor
  · intro m hm hdir
    constructor
    · exact List.mem_map.mpr ⟨m, hm, by rw [if_pos hdir]⟩
    · exact List.mem_filter.mpr ⟨hm, hdir⟩
  · unfold finalMembers
    apply List.map_congr_left
    intro m hm
    have hmut : m ∈ (postPass (errorlevelOf ig) outcome root (applyOrder members)).mutated
        ↔ (m.isdir = true ∧ m.mode &&& DIRECTORY_MODE ≠ 0
            ∧ (outcome m = .ok ∨ outcome m = .chmodFail)) := by
      unfold postPass
      rw [postPass_foldl_mutated (errorlevelOf_le_one ig) outcome root _ ⟨[], [], false⟩ rfl]
      simp only [List.nil_append, List.mem_filter, mem_applyOrder, mutatedPred,
        Bool.and_eq_true, Bool.or_eq_true, decide_eq_true_eq]
      constructor
      · rintro ⟨⟨hmem, hdir⟩, hbit, hok⟩
        exact ⟨hdir, hbit, hok⟩
      · rintro ⟨hdir, hbit, hok⟩
        exact ⟨⟨hm, hdir⟩, hbit, hok⟩
    by_cases hcond : m.isdir = true ∧ m.mode &&& DIRECTORY_MODE ≠ 0
        ∧ (outcome m = .ok ∨ outcome m = .chmodFail)
    · rw [if_pos (hmut.mpr hcond), if_pos hcond]
    · rw [if_neg (fun hx => hcond (hmut.mp hx)), if_neg hcond]

/-- C9 witness: the theorem instantiated on a one-directory layer with
failing mtime application — no mutation happens and the member is unchanged;
the immediate call used the temporary-mode copy. -/
theorem extract_mutation_behavior_witness :
    (((⟨['a'], true, OWNER_READ_WRITE⟩ : TarInfo), false)
        ∈ immediateCalls [⟨['a'], true, 0o40700⟩]
      ∧ (⟨['a'], true, 0o40700⟩ : TarInfo) ∈ deferredDirs [⟨['a'], true, 0o40700⟩])
    ∧ finalMembers false (fun _ => .utimeFail) [] [⟨['a'], true, 0o40700⟩]
        = [⟨['a'], true, 0o40700⟩] :=
  ⟨(extract_mutation_behavior false (fun _ => .utimeFail) []
        [⟨['a'], true, 0o40700⟩]).1 ⟨['a'], true, 0o40700⟩ (by decide) rfl,
    by
      rw [(extract_mutation_behavior false (fun _ => .utimeFail) []
        [⟨['a'], true, 0o40700⟩]).2]
      rfl⟩

/-- C9 counterexample: a single directory entry with recorded mode 0o40755 and
successful attribute application. After extraction and the post-pass the entry
object's mode field reads 0o40757: the post-pass mutated the entry as read
from the archive, contradicting the claim that its recorded fields are
unchanged. -/
theorem post_pass_mutates_counterexample :
    finalMembers false (fun _ => .ok) [] [⟨['a'], true, 0o40755⟩]
      = [⟨['a'], true, 0o40757⟩]
    ∧ ([⟨['a'], true, 0o40757⟩] : List TarInfo) ≠ [⟨['a'], true, 0o40755⟩] :=
  ⟨rfl, by decide⟩

/-! ## Image resolution lemmas -/

lemma splitColon_append (n t : Path) (hc : (':' : Char) ∉ n) :
    splitColon (n ++ ':' :: t) = some (n, t) := by
  induction n with
  | nil => simp [splitColon]
  | cons c n' ih =>
    have hcne : c ≠ ':' := by
      intro hcc
      exact hc (by simp [hcc])
    have ih' := ih (fun hx => hc (by simp [hx]))
    simp only [List.cons_append, splitColon, if_neg hcne, List.append_eq, ih']

/-- C8 (amended): for every image reference carrying an explicit tag (a colon
separates name and tag) whose (name, tag) pair is absent from the repository
mapping, resolution ends in the reported `ImageNotFound` exit; a reference
without a tag whose name is absent instead dies with the uncaught lookup
error of line 161. -/
theorem tagged_ref_image_not_found
    (repos : List (Path × List (Path × Path))) (n t : Path)
    (hc : (':' : Char) ∉ n)
    (habs : ∀ tags, lookupA repos n = some tags → lookupA tags t = none) :
    resolveImage repos (some (n ++ ':' :: t)) = .imageNotFound := by
  show resolveRef repos (n ++ ':' :: t) = .imageNotFound
  unfold resolveRef
  rw [splitColon_append n t hc]
  show finishLookup repos n t = .imageNotFound
  unfold finishLookup
  cases hl : lookupA repos n with
  | none => rfl
  | some tags => dsimp only; rw [habs tags hl]

/-- C8 witness: manifest `{a: {t: L}}`, reference `a:u` — tag `u` is absent,
and resolution reports image-not-found. -/
theorem tagged_ref_image_not_found_witness :
    resolveImage [(['a'], [(['t'], ['L'])])] (some (['a'] ++ ':' :: ['u']))
      = .imageNotFound :=
  tagged_ref_image_not_found [(['a'], [(['t'], ['L'])])] ['a'] ['u']
    (by decide)
    (fun tags h => by injection h with h2; subst h2; rfl)

/-- C8 counterexample: manifest `{a: {t: L}}` and the untagged reference `b`:
the resolved pair (`b`, any tag) is absent, yet the code crashes with an
uncaught `KeyError` at `repos[args.image]` instead of the `ImageNotFound`
report the claim promises. -/
theorem untagged_ref_crash_counterexample :
    resolveImage [(['a'], [(['t'], ['L'])])] (some ['b']) = .keyErrorCrash
    ∧ resolveImage [(['a'], [(['t'], ['L'])])] (some ['b']) ≠ .imageNotFound :=
  ⟨rfl, by decide⟩

end Undocker
